import Mathlib

/-!
Verification of the sentiment-dashboard pipeline.

This file gives a shallow embedding of the core pipeline of the
sentiment-dashboard repository (document filtering, text normalisation and
chunking, sentiment scoring, the processing ledger and the orchestrator's
merge-on-flush persistence), and proves properties about it.

Modelling conventions:
* Python `str` values that are inspected character by character are modelled
  as `List Char`; identifiers kept whole (company codes, quarters, URLs) stay
  `String`.
* Python floats are modelled as rationals (`ℚ`); `round(x, 3)` is modelled by
  `round3` (round half to even, as Python does).
* External effects (HTTP fetches, the FinBERT model, TextBlob) are parameters:
  the model is a function from chunk text to a probability triple, TextBlob is
  a function from text to a polarity, extraction is a partial function from a
  URL to text.  Wall-clock timestamps stored next to ledger entries are not
  modelled (no claim mentions them).
-/

namespace Sentiment

/-! ## Basic text helpers (Python `str.split`, `str.strip`, `str.lower`) -/

/-- Python `str.split()` with no argument: split on whitespace runs and drop
empty pieces.  `cur` accumulates the current word reversed. -/
def splitWordsAux : List Char → List Char → List (List Char)
  | cur, [] => if cur = [] then [] else [cur.reverse]
  | cur, c :: rest =>
    if c.isWhitespace then
      if cur = [] then splitWordsAux [] rest
      else cur.reverse :: splitWordsAux [] rest
    else splitWordsAux (c :: cur) rest

/-- Python `text.split()`. -/
def splitWords (s : List Char) : List (List Char) := splitWordsAux [] s

/-- Python `' '.join(words)`. -/
def joinWords : List (List Char) → List Char
  | [] => []
  | [w] => w
  | w :: rest => w ++ ' ' :: joinWords rest

/-- Python `str.strip()`: drop leading and trailing whitespace. -/
def trimChars (s : List Char) : List Char :=
  ((s.dropWhile Char.isWhitespace).reverse.dropWhile Char.isWhitespace).reverse

/-- Python `str.lower()` (ASCII, which covers the texts this code handles). -/
def toLowerChars (s : List Char) : List Char := s.map Char.toLower

/-- Python `str.upper()` on a whole string (ASCII). -/
def upperStr (s : String) : String := ⟨s.data.map Char.toUpper⟩

/-- Python `pat in s` (contiguous substring test). -/
def containsSub (pat s : List Char) : Bool :=
  (List.range (s.length + 1)).any (fun i => pat.isPrefixOf (s.drop i))

/-! ## Python rounding

Python `round` rounds half to even.  `roundHalfEven` is that on `ℚ`, and
`round3` is `round(x, 3)`. -/

/-- Python `round(q)` on a rational: round half to even. -/
def roundHalfEven (q : ℚ) : ℤ :=
  if Int.fract q < 1/2 then ⌊q⌋
  else if 1/2 < Int.fract q then ⌊q⌋ + 1
  else if ⌊q⌋ % 2 = 0 then ⌊q⌋ else ⌊q⌋ + 1

/-- Python `round(q, 3)`. -/
def round3 (q : ℚ) : ℚ := (roundHalfEven (q * 1000) : ℚ) / 1000

theorem roundHalfEven_sub_abs (q : ℚ) : |(roundHalfEven q : ℚ) - q| ≤ 1/2 := by
  have h0 : 0 ≤ Int.fract q := Int.fract_nonneg q
  have h1 : Int.fract q < 1 := Int.fract_lt_one q
  have hq : (⌊q⌋ : ℚ) + Int.fract q = q := Int.floor_add_fract q
  unfold roundHalfEven
  split_ifs <;> (rw [abs_le]; constructor <;> push_cast <;> linarith)

theorem round3_sub_abs (q : ℚ) : |round3 q - q| ≤ 1/2000 := by
  have h := roundHalfEven_sub_abs (q * 1000)
  have hrw : round3 q - q = ((roundHalfEven (q * 1000) : ℚ) - q * 1000) / 1000 := by
    unfold round3; ring
  rw [hrw, abs_div, abs_of_nonneg (show (0:ℚ) ≤ 1000 by norm_num)]
  linarith

theorem round3_abs_le_one {q : ℚ} (h : |q| ≤ 1) : |round3 q| ≤ 1 := by
  have h2 := roundHalfEven_sub_abs (q * 1000)
  rw [abs_le] at h h2
  have hm : |roundHalfEven (q * 1000)| ≤ 1000 := by
    have hc : |(roundHalfEven (q * 1000) : ℚ)| ≤ 2001/2 := by
      rw [abs_le]; constructor <;> nlinarith [h.1, h.2, h2.1, h2.2]
    by_contra hcon
    push_neg at hcon
    have : (1001 : ℤ) ≤ |roundHalfEven (q * 1000)| := hcon
    have : (1001 : ℚ) ≤ |(roundHalfEven (q * 1000) : ℚ)| := by
      rw [← Int.cast_abs]; exact_mod_cast this
    linarith
  have hmq : |(roundHalfEven (q * 1000) : ℚ)| ≤ 1000 := by
    rw [← Int.cast_abs]; exact_mod_cast hm
  unfold round3
  rw [abs_div, abs_of_nonneg (by norm_num : (0:ℚ) ≤ 1000)]
  linarith

/-! ## Text normaliser and chunker (`FinBERTAnalyzer.clean_text`, `_chunk_text`) -/

/-- First substitution of `clean_text`: `re.sub(r'\s+', ' ', text)`.  The flag
records whether the previous character was whitespace (so a run collapses to a
single space). -/
def collapseWsAux : Bool → List Char → List Char
  | _, [] => []
  | prevWs, c :: rest =>
    if c.isWhitespace then
      if prevWs then collapseWsAux true rest else ' ' :: collapseWsAux true rest
    else c :: collapseWsAux false rest

/-- Character class kept by `re.sub(r'[^\w\s\.\,\!\?\;\:\-\'\"]', '', text)`.
`\w` is `[A-Za-z0-9_]` (ASCII).  The apostrophe and double quote are written
via their code points. -/
def allowedChar (c : Char) : Bool :=
  c.isAlphanum || c = '_' || c.isWhitespace || c = '.' || c = ',' || c = '!' ||
    c = '?' || c = ';' || c = ':' || c = '-' || c = Char.ofNat 39 || c = Char.ofNat 34

/-- Source `FinBERTAnalyzer.clean_text`: collapse whitespace, strip disallowed
characters, strip ends. -/
def clean_text (text : List Char) : List Char :=
  trimChars ((collapseWsAux false text).filter allowedChar)

/-- Source `int(max_tokens * 0.75)` with the default `max_tokens = 450`, i.e. 337. -/
def words_per_chunk : ℕ := (450 * 3) / 4

/-- Source `int(words_per_chunk * 0.1)`, i.e. 33. -/
def chunk_overlap : ℕ := words_per_chunk / 10

theorem words_per_chunk_eq : words_per_chunk = 337 := rfl

theorem chunk_overlap_eq : chunk_overlap = 33 := rfl

/-- The `while start < len(words)` loop of `_chunk_text`, with explicit fuel
(the loop advances `start` by at least one word per iteration, so
`words.length + 1` units of fuel always suffice). -/
def chunkLoop (words : List (List Char)) : ℕ → ℕ → List (List Char)
  | _, 0 => []
  | start, fuel + 1 =>
    if start < words.length then
      let e := min (start + words_per_chunk) words.length
      let chunk := joinWords ((words.drop start).take (e - start))
      let rest := chunkLoop words
        (if e < words.length then e - chunk_overlap else words.length) fuel
      if trimChars chunk ≠ [] then chunk :: rest else rest
    else []

/-- Source `FinBERTAnalyzer._chunk_text` (word-based splitting with overlap, falling
back to a 2000-character prefix when no chunk was produced). -/
def chunkText (text : List Char) : List (List Char) :=
  let wds := splitWords text
  let chunks := chunkLoop wds 0 (wds.length + 1)
  if chunks = [] then [text.take 2000] else chunks

/-! ## Score vectors (`analyze_text_finbert`, `_analyze_text_textblob`) -/

/-- The dictionary returned by the two text scorers: `positive`, `negative`,
`neutral` probabilities and `compound_score`. -/
structure ScoreVec where
  positive : ℚ
  negative : ℚ
  neutral : ℚ
  compound_score : ℚ
deriving DecidableEq

/-- Source `FinBERTAnalyzer._analyze_text_textblob`.  `tb` is the external TextBlob
polarity oracle (`TextBlob(text).sentiment.polarity`). -/
def analyze_text_textblob (tb : List Char → ℚ) (text : List Char) : ScoreVec :=
  if (splitWords text).length < 20 then ⟨33/100, 33/100, 34/100, 0⟩
  else
    let polarity := tb text
    if 0 < polarity then
      let positive := 1/2 + polarity * (1/2)
      let negative : ℚ := 1/10
      let neutral := 1 - positive - negative
      ⟨round3 positive, round3 negative, round3 neutral, round3 polarity⟩
    else if polarity < 0 then
      let negative := 1/2 + |polarity| * (1/2)
      let positive : ℚ := 1/10
      let neutral := 1 - positive - negative
      ⟨round3 positive, round3 negative, round3 neutral, round3 polarity⟩
    else
      ⟨round3 (1/4), round3 (1/4), round3 (1/2), round3 polarity⟩

/-- Source `FinBERTAnalyzer.analyze_text_finbert`.  `model` is the external FinBERT
pass: for each chunk it returns the softmax triple
(positive, negative, neutral).  When FinBERT is unavailable the function falls
back to TextBlob, as in the source. -/
def analyze_text_finbert (use_finbert : Bool) (model : List Char → ℚ × ℚ × ℚ)
    (tb : List Char → ℚ) (text : List Char) : ScoreVec :=
  if ¬use_finbert then analyze_text_textblob tb text
  else
    let all_scores := (chunkText text).map model
    let n : ℚ := all_scores.length
    let avg_pos := (all_scores.map (fun s => s.1)).sum / n
    let avg_neg := (all_scores.map (fun s => s.2.1)).sum / n
    let avg_neu := (all_scores.map (fun s => s.2.2)).sum / n
    ⟨avg_pos, avg_neg, avg_neu, round3 (avg_pos - avg_neg)⟩

/-- A valid softmax output: componentwise nonnegative summing to one. -/
def validDist (s : ℚ × ℚ × ℚ) : Prop :=
  0 ≤ s.1 ∧ 0 ≤ s.2.1 ∧ 0 ≤ s.2.2 ∧ s.1 + s.2.1 + s.2.2 = 1

/-! ## Keyword sentiment (`get_keyword_sentiment`) -/

/-- Source `self.positive_keywords` from `FinBERTAnalyzer.__init__`. -/
def positive_keywords : List (List Char) :=
  ["strong", "growth", "improve", "excellent", "success", "expand",
   "opportunity", "robust", "resilient", "positive", "outperform",
   "beat", "exceed", "momentum", "strength", "record", "surge",
   "optimistic", "confident", "upgrade", "bullish"].map (fun s => s.data)

/-- Source `self.negative_keywords` from `FinBERTAnalyzer.__init__`. -/
def negative_keywords : List (List Char) :=
  ["weak", "decline", "challenge", "pressure", "concern", "risk",
   "uncertain", "difficult", "headwind", "negative", "underperform",
   "miss", "delay", "slow", "struggle", "downturn", "volatile",
   "cautious", "bearish", "downgrade"].map (fun s => s.data)

/-- Source `FinBERTAnalyzer.get_keyword_sentiment`. -/
def get_keyword_sentiment (text : List Char) : ℚ :=
  let wds := splitWords (toLowerChars text)
  let pos_count : ℚ := wds.countP (fun w => decide (w ∈ positive_keywords))
  let neg_count : ℚ := wds.countP (fun w => decide (w ∈ negative_keywords))
  let total := pos_count + neg_count
  if total = 0 then 0
  else round3 (max (-1) (min 1 ((pos_count - neg_count) / total)))

/-! ## Guidance detector (`detect_guidance`)

Every pattern in the source is either a literal or of the shape
`lit1 .* lit2`.  `searchPair a b s` models `re.search('a.*b', s)`: some
occurrence of `a` followed (at or after its end) by an occurrence of `b`, with
no newline in between (`.` does not match a newline). -/

/-- One regular-expression pattern of `detect_guidance`. -/
inductive GuidancePattern where
  | pair (a b : String)
  | lit (a : String)

/-- Source `re.search('a.*b', s)` as a Boolean. -/
def searchPair (a b : List Char) (s : List Char) : Bool :=
  (List.range (s.length + 1)).any fun i =>
    a.isPrefixOf (s.drop i) &&
    ((List.range (s.length + 1)).any fun j =>
      decide (i + a.length ≤ j) && b.isPrefixOf (s.drop j) &&
      ((s.drop (i + a.length)).take (j - (i + a.length))).all fun c => decide (c ≠ '\n'))

/-- Source `re.search(p, s)` for the two pattern shapes used by `detect_guidance`. -/
def searchPattern : GuidancePattern → List Char → Bool
  | .pair a b, s => searchPair a.data b.data s
  | .lit a, s => containsSub a.data s

/-- Source `positive_patterns` of `detect_guidance`. -/
def guidance_positive_patterns : List GuidancePattern :=
  [.pair "rais" "guidance", .pair "upgrad" "guidance", .pair "exceed" "expectation",
   .pair "beat" "estimate", .pair "above" "consensus", .pair "stronger" "outlook",
   .pair "increas" "forecast", .pair "revis" "upward"]

/-- Source `negative_patterns` of `detect_guidance`. -/
def guidance_negative_patterns : List GuidancePattern :=
  [.pair "lower" "guidance", .pair "cut" "guidance", .pair "miss" "expectation",
   .pair "below" "estimate", .pair "weaker" "outlook", .pair "decreas" "forecast",
   .pair "revis" "downward", .lit "disappoint"]

/-- Source `pos_matches` of `detect_guidance`: how many patterns of the raise/beat
family match the lowercased text. -/
def guidance_pos_matches (text : List Char) : ℕ :=
  guidance_positive_patterns.countP (fun p => searchPattern p (toLowerChars text))

/-- Source `neg_matches` of `detect_guidance`. -/
def guidance_neg_matches (text : List Char) : ℕ :=
  guidance_negative_patterns.countP (fun p => searchPattern p (toLowerChars text))

/-- Source `FinBERTAnalyzer.detect_guidance`. -/
def detect_guidance (text : List Char) : ℚ :=
  if guidance_neg_matches text < guidance_pos_matches text then 1
  else if guidance_pos_matches text < guidance_neg_matches text then -1
  else 0

/-! ## Risk score (`calculate_risk_score`) -/

/-- Source `risk_terms` of `calculate_risk_score`. -/
def risk_terms : List (List Char) :=
  ["risk", "uncertain", "volatile", "challenge", "headwind",
   "concern", "threat", "exposure", "vulnerability"].map (fun s => s.data)

/-- Python `s.count(pat)`: non-overlapping occurrences, scanning left to
right.  Fuel-based; `s.length + 1` always suffices for the nonempty patterns
used here. -/
def countOccAux (pat : List Char) : List Char → ℕ → ℕ
  | _, 0 => 0
  | [], _ + 1 => if pat = [] then 1 else 0
  | c :: rest, fuel + 1 =>
    if pat.isPrefixOf (c :: rest) then 1 + countOccAux pat ((c :: rest).drop pat.length) fuel
    else countOccAux pat rest fuel

/-- Python `s.count(pat)`. -/
def countOcc (pat s : List Char) : ℕ := countOccAux pat s (s.length + 1)

/-- Source `FinBERTAnalyzer.calculate_risk_score`. -/
def calculate_risk_score (text : List Char) : ℚ :=
  let tl := toLowerChars text
  let word_count := (splitWords tl).length
  if word_count = 0 then 0
  else
    let risk_count : ℚ := ((risk_terms.map (fun t => countOcc t tl)).sum : ℕ)
    let risk_score := (risk_count / word_count) * 1000
    round3 (min 1 (risk_score / 10))

/-! ## Full transcript analysis (`analyze_transcript`) -/

/-- The dictionary returned by `analyze_transcript`. -/
structure TranscriptAnalysis where
  finbert_score : ℚ
  finbert_positive : ℚ
  finbert_negative : ℚ
  finbert_neutral : ℚ
  keyword_sentiment : ℚ
  guidance : ℚ
  risk : ℚ
  overall_sentiment : ℚ
deriving DecidableEq

/-- The early-return value of `analyze_transcript` for empty or too-short
texts. -/
def neutral_defaults : TranscriptAnalysis :=
  ⟨0, 33/100, 33/100, 34/100, 0, 0, 0, 0⟩

/-- Source `FinBERTAnalyzer.analyze_transcript`.  The `not text` part of the guard is
subsumed by the word-count test (an empty text has zero words). -/
def analyze_transcript (use_finbert : Bool) (model : List Char → ℚ × ℚ × ℚ)
    (tb : List Char → ℚ) (text : List Char) : TranscriptAnalysis :=
  if (splitWords text).length < 50 then neutral_defaults
  else
    let cleaned := clean_text text
    let fb := analyze_text_finbert use_finbert model tb cleaned
    let keyword_score := get_keyword_sentiment cleaned
    let g := detect_guidance cleaned
    let r := calculate_risk_score cleaned
    let overall := fb.compound_score * (50/100) + keyword_score * (30/100) + g * (20/100)
    ⟨fb.compound_score, fb.positive, fb.negative, fb.neutral,
     keyword_score, g, r, round3 overall⟩

/-! ## Facts about the scorer -/

theorem chunkText_ne_nil (text : List Char) : chunkText text ≠ [] := by
  unfold chunkText
  by_cases h : chunkLoop (splitWords text) 0 ((splitWords text).length + 1) = [] <;>
    simp [h]

theorem sum_triples (l : List (ℚ × ℚ × ℚ)) (h : ∀ x ∈ l, x.1 + x.2.1 + x.2.2 = 1) :
    (l.map (fun s => s.1)).sum + (l.map (fun s => s.2.1)).sum
      + (l.map (fun s => s.2.2)).sum = l.length := by
  induction l with
  | nil => simp
  | cons a t ih =>
    have ha := h a (by simp)
    have ih' := ih (fun x hx => h x (by simp [hx]))
    simp only [List.map_cons, List.sum_cons, List.length_cons]
    push_cast
    linarith

theorem avg_mem_unit {l : List ℚ} (h0 : ∀ x ∈ l, 0 ≤ x) (h1 : ∀ x ∈ l, x ≤ 1)
    (hne : l ≠ []) : 0 ≤ l.sum / l.length ∧ l.sum / l.length ≤ 1 := by
  have hpos : (0 : ℚ) < l.length := by
    have : l.length ≠ 0 := fun hc => hne (List.length_eq_zero.mp hc)
    exact_mod_cast Nat.pos_of_ne_zero this
  constructor
  · exact div_nonneg (List.sum_nonneg h0) (le_of_lt hpos)
  · rw [div_le_one hpos]
    have := List.sum_le_card_nsmul l 1 h1
    simpa using this

theorem analyze_text_finbert_true (model : List Char → ℚ × ℚ × ℚ)
    (tb : List Char → ℚ) (text : List Char) :
    analyze_text_finbert true model tb text =
      ⟨(((chunkText text).map model).map (fun s => s.1)).sum
          / ((chunkText text).map model).length,
        (((chunkText text).map model).map (fun s => s.2.1)).sum
          / ((chunkText text).map model).length,
        (((chunkText text).map model).map (fun s => s.2.2)).sum
          / ((chunkText text).map model).length,
        round3 ((((chunkText text).map model).map (fun s => s.1)).sum
            / ((chunkText text).map model).length
          - (((chunkText text).map model).map (fun s => s.2.1)).sum
            / ((chunkText text).map model).length)⟩ := rfl

theorem analyze_text_textblob_short (tb : List Char → ℚ) (text : List Char)
    (h0 : (splitWords text).length < 20) :
    analyze_text_textblob tb text = ⟨33/100, 33/100, 34/100, 0⟩ := by
  unfold analyze_text_textblob
  rw [if_pos h0]

theorem analyze_text_textblob_pos (tb : List Char → ℚ) (text : List Char)
    (h0 : ¬(splitWords text).length < 20) (h1 : 0 < tb text) :
    analyze_text_textblob tb text =
      ⟨round3 (1/2 + tb text * (1/2)), round3 (1/10),
        round3 (1 - (1/2 + tb text * (1/2)) - 1/10), round3 (tb text)⟩ := by
  unfold analyze_text_textblob
  rw [if_neg h0]
  dsimp only
  rw [if_pos h1]

theorem analyze_text_textblob_neg (tb : List Char → ℚ) (text : List Char)
    (h0 : ¬(splitWords text).length < 20) (h1 : ¬0 < tb text) (h2 : tb text < 0) :
    analyze_text_textblob tb text =
      ⟨round3 (1/10), round3 (1/2 + |tb text| * (1/2)),
        round3 (1 - 1/10 - (1/2 + |tb text| * (1/2))), round3 (tb text)⟩ := by
  unfold analyze_text_textblob
  rw [if_neg h0]
  dsimp only
  rw [if_neg h1, if_pos h2]

theorem analyze_text_textblob_zero (tb : List Char → ℚ) (text : List Char)
    (h0 : ¬(splitWords text).length < 20) (h1 : ¬0 < tb text) (h2 : ¬tb text < 0) :
    analyze_text_textblob tb text =
      ⟨round3 (1/4), round3 (1/4), round3 (1/2), round3 (tb text)⟩ := by
  unfold analyze_text_textblob
  rw [if_neg h0]
  dsimp only
  rw [if_neg h1, if_neg h2]

theorem textblob_compound_round (tb : List Char → ℚ) (text : List Char) :
    (analyze_text_textblob tb text).compound_score = round3 (tb text) ∨
      (analyze_text_textblob tb text).compound_score = 0 := by
  by_cases h0 : (splitWords text).length < 20
  · rw [analyze_text_textblob_short tb text h0]
    exact Or.inr rfl
  · by_cases h1 : 0 < tb text
    · rw [analyze_text_textblob_pos tb text h0 h1]
      exact Or.inl rfl
    · by_cases h2 : tb text < 0
      · rw [analyze_text_textblob_neg tb text h0 h1 h2]
        exact Or.inl rfl
      · rw [analyze_text_textblob_zero tb text h0 h1 h2]
        exact Or.inl rfl

/-- C1 (amended): on the FinBERT chunk-averaging path the three probabilities
sum to exactly 1 and the compound score is `positive - negative` rounded to
three decimals (so within 1/2000 of the difference); on the TextBlob fallback
path the probabilities sum to 1 up to 3/2000 (three roundings), and the
compound score is the rounded polarity (or 0 for short texts), which need not
equal `positive - negative`. -/
theorem scoreVector_sum_and_compound (model : List Char → ℚ × ℚ × ℚ)
    (tb : List Char → ℚ) (text : List Char) (hm : ∀ c, validDist (model c)) :
    (analyze_text_finbert true model tb text).positive
        + (analyze_text_finbert true model tb text).negative
        + (analyze_text_finbert true model tb text).neutral = 1 ∧
    |(analyze_text_finbert true model tb text).compound_score
        - ((analyze_text_finbert true model tb text).positive
            - (analyze_text_finbert true model tb text).negative)| ≤ 1/2000 ∧
    |(analyze_text_textblob tb text).positive
        + (analyze_text_textblob tb text).negative
        + (analyze_text_textblob tb text).neutral - 1| ≤ 3/2000 ∧
    ((analyze_text_textblob tb text).compound_score = round3 (tb text) ∨
        (analyze_text_textblob tb text).compound_score = 0) := by
  refine ⟨?_, ?_, ?_, textblob_compound_round tb text⟩
  · rw [analyze_text_finbert_true]
    have hne : ((chunkText text).map model) ≠ [] := by
      intro hc
      exact chunkText_ne_nil text (List.map_eq_nil_iff.mp hc)
    have hlen : (0 : ℚ) < ((chunkText text).map model).length := by
      have h2 : ((chunkText text).map model).length ≠ 0 :=
        fun hc => hne (List.length_eq_zero.mp hc)
      exact_mod_cast Nat.pos_of_ne_zero h2
    have hsum := sum_triples ((chunkText text).map model) ?_
    · show (_ / _ + _ / _ + _ / _ : ℚ) = 1
      rw [div_add_div_same, div_add_div_same, hsum]
      exact div_self (ne_of_gt hlen)
    · intro x hx
      obtain ⟨c, _, rfl⟩ := List.mem_map.mp hx
      exact (hm c).2.2.2
  · rw [analyze_text_finbert_true]
    exact round3_sub_abs _
  · by_cases h0 : (splitWords text).length < 20
    · rw [analyze_text_textblob_short tb text h0]
      norm_num
    · by_cases h1 : 0 < tb text
      · rw [analyze_text_textblob_pos tb text h0 h1]
        have r1 := round3_sub_abs (1/2 + tb text * (1/2))
        have r2 := round3_sub_abs ((1:ℚ)/10)
        have r3 := round3_sub_abs (1 - (1/2 + tb text * (1/2)) - 1/10)
        show |round3 (1/2 + tb text * (1/2)) + round3 (1/10)
          + round3 (1 - (1/2 + tb text * (1/2)) - 1/10) - 1| ≤ 3/2000
        rw [abs_le] at r1 r2 r3 ⊢
        constructor <;> linarith
      · by_cases h2 : tb text < 0
        · rw [analyze_text_textblob_neg tb text h0 h1 h2]
          have r1 := round3_sub_abs ((1:ℚ)/10)
          have r2 := round3_sub_abs (1/2 + |tb text| * (1/2))
          have r3 := round3_sub_abs (1 - 1/10 - (1/2 + |tb text| * (1/2)))
          show |round3 (1/10) + round3 (1/2 + |tb text| * (1/2))
            + round3 (1 - 1/10 - (1/2 + |tb text| * (1/2))) - 1| ≤ 3/2000
          rw [abs_le] at r1 r2 r3 ⊢
          constructor <;> linarith
        · rw [analyze_text_textblob_zero tb text h0 h1 h2]
          have r1 := round3_sub_abs ((1:ℚ)/4)
          have r2 := round3_sub_abs ((1:ℚ)/2)
          show |round3 (1/4) + round3 (1/4) + round3 (1/2) - 1| ≤ 3/2000
          rw [abs_le] at r1 r2 ⊢
          constructor <;> linarith

/-- C1 witness: the amended theorem applied to a one-chunk model returning
the distribution (1/2, 1/4, 1/4). -/
theorem scoreVector_sum_and_compound_witness :
    (analyze_text_finbert true (fun _ => (1/2, 1/4, 1/4)) (fun _ => 0) []).positive
        + (analyze_text_finbert true (fun _ => (1/2, 1/4, 1/4)) (fun _ => 0) []).negative
        + (analyze_text_finbert true (fun _ => (1/2, 1/4, 1/4)) (fun _ => 0) []).neutral = 1 :=
  (scoreVector_sum_and_compound (fun _ => (1/2, 1/4, 1/4)) (fun _ => 0) []
    (fun _ => by constructor <;> norm_num)).1

unseal Rat.add Rat.mul Rat.inv Rat.sub in
/-- C1 counterexample: on the TextBlob fallback path with polarity 1/2 over a
20-word text, the compound score (0.5) differs from positive - negative
(0.75 - 0.1 = 0.65), refuting `compound == positive - negative` as stated. -/
theorem scoreVector_compound_counterexample :
    (analyze_text_textblob (fun _ => 1/2) (joinWords (List.replicate 20 ("good").data))).compound_score
      ≠ (analyze_text_textblob (fun _ => 1/2) (joinWords (List.replicate 20 ("good").data))).positive
        - (analyze_text_textblob (fun _ => 1/2) (joinWords (List.replicate 20 ("good").data))).negative := by
  decide

theorem keyword_sentiment_abs_le (text : List Char) : |get_keyword_sentiment text| ≤ 1 := by
  unfold get_keyword_sentiment
  dsimp only
  split_ifs
  · norm_num
  · apply round3_abs_le_one
    rw [abs_le]
    refine ⟨le_max_left _ _, max_le (by norm_num) (min_le_left _ _)⟩

theorem detect_guidance_abs_le (text : List Char) : |detect_guidance text| ≤ 1 := by
  unfold detect_guidance
  split_ifs <;> norm_num

theorem compound_abs_le (use_finbert : Bool) (model : List Char → ℚ × ℚ × ℚ)
    (tb : List Char → ℚ) (text : List Char) (hm : ∀ c, validDist (model c))
    (ht : ∀ t, |tb t| ≤ 1) :
    |(analyze_text_finbert use_finbert model tb text).compound_score| ≤ 1 := by
  cases use_finbert with
  | false =>
    have heq : analyze_text_finbert false model tb text = analyze_text_textblob tb text := rfl
    rw [heq]
    rcases textblob_compound_round tb text with h | h <;> rw [h]
    · exact round3_abs_le_one (ht text)
    · norm_num
  | true =>
    rw [analyze_text_finbert_true]
    apply round3_abs_le_one
    have hne : (chunkText text).map model ≠ [] := by
      intro hc
      exact chunkText_ne_nil text (List.map_eq_nil_iff.mp hc)
    have hpos := avg_mem_unit (l := ((chunkText text).map model).map (fun s => s.1))
      ?_ ?_ (by simpa using hne)
    have hneg := avg_mem_unit (l := ((chunkText text).map model).map (fun s => s.2.1))
      ?_ ?_ (by simpa using hne)
    · rw [abs_le]
      rw [List.length_map] at hpos hneg
      constructor <;> linarith [hpos.1, hpos.2, hneg.1, hneg.2]
    · intro x hx
      obtain ⟨y, hy, rfl⟩ := List.mem_map.mp hx
      obtain ⟨c, _, rfl⟩ := List.mem_map.mp hy
      exact (hm c).2.1
    · intro x hx
      obtain ⟨y, hy, rfl⟩ := List.mem_map.mp hx
      obtain ⟨c, _, rfl⟩ := List.mem_map.mp hy
      have h := hm c
      unfold validDist at h
      linarith [h.1, h.2.1, h.2.2.1, h.2.2.2]
    · intro x hx
      obtain ⟨y, hy, rfl⟩ := List.mem_map.mp hx
      obtain ⟨c, _, rfl⟩ := List.mem_map.mp hy
      exact (hm c).1
    · intro x hx
      obtain ⟨y, hy, rfl⟩ := List.mem_map.mp hx
      obtain ⟨c, _, rfl⟩ := List.mem_map.mp hy
      have h := hm c
      unfold validDist at h
      linarith [h.1, h.2.1, h.2.2.1, h.2.2.2]

/-- C2: for every input text (and any model outputs that are genuine
probability distributions, and any TextBlob polarity in [-1, 1]), the
composite overall sentiment computed by `analyze_transcript` — the fixed
50/30/20 blend of model compound, lexicon score and guidance signal — lies in
[-1, 1]. -/
theorem overall_sentiment_in_range (use_finbert : Bool)
    (model : List Char → ℚ × ℚ × ℚ) (tb : List Char → ℚ) (text : List Char)
    (hm : ∀ c, validDist (model c)) (ht : ∀ t, |tb t| ≤ 1) :
    -1 ≤ (analyze_transcript use_finbert model tb text).overall_sentiment ∧
      (analyze_transcript use_finbert model tb text).overall_sentiment ≤ 1 := by
  unfold analyze_transcript
  split_ifs
  · unfold neutral_defaults
    norm_num
  · dsimp only
    have hc := compound_abs_le use_finbert model tb (clean_text text) hm ht
    have hk := keyword_sentiment_abs_le (clean_text text)
    have hg := detect_guidance_abs_le (clean_text text)
    have hsum : |(analyze_text_finbert use_finbert model tb (clean_text text)).compound_score
        * (50/100) + get_keyword_sentiment (clean_text text) * (30/100)
        + detect_guidance (clean_text text) * (20/100)| ≤ 1 := by
      rw [abs_le] at hc hk hg ⊢
      constructor <;> nlinarith [hc.1, hc.2, hk.1, hk.2, hg.1, hg.2]
    have := round3_abs_le_one hsum
    rw [abs_le] at this
    exact this

/-- C2 witness: the range theorem applied to the empty text with a concrete
valid model and polarity oracle. -/
theorem overall_sentiment_in_range_witness :
    -1 ≤ (analyze_transcript true (fun _ => (1, 0, 0)) (fun _ => 0) []).overall_sentiment ∧
      (analyze_transcript true (fun _ => (1, 0, 0)) (fun _ => 0) []).overall_sentiment ≤ 1 :=
  overall_sentiment_in_range true (fun _ => (1, 0, 0)) (fun _ => 0) []
    (fun _ => by constructor <;> norm_num) (fun _ => by norm_num)

/-- C6 (amended): a text with fewer than the minimum 50 words (in particular
the empty text) makes `analyze_transcript` return the fixed neutral record —
all signals 0.0 and the distribution (0.33, 0.33, 0.34) — independently of
the model and polarity oracles, so the model is never consulted. -/
theorem short_text_neutral (use_finbert : Bool) (model : List Char → ℚ × ℚ × ℚ)
    (tb : List Char → ℚ) (text : List Char)
    (h : (splitWords text).length < 50) :
    analyze_transcript use_finbert model tb text = neutral_defaults := by
  unfold analyze_transcript
  rw [if_pos h]

/-- C6 witness: the short-text theorem applied to a concrete two-word text. -/
theorem short_text_neutral_witness :
    analyze_transcript true (fun _ => (1, 0, 0)) (fun _ => 1) ("too short").data
      = neutral_defaults :=
  short_text_neutral true (fun _ => (1, 0, 0)) (fun _ => 1) ("too short").data (by decide)

unseal Rat.add Rat.mul Rat.inv Rat.sub in
/-- C6 counterexample: the claim says the returned distribution is 1/3 each,
but on the empty text the code returns neutral = 0.34 and positive = 0.33,
neither of which is 1/3. -/
theorem short_text_distribution_counterexample :
    (analyze_transcript true (fun _ => (1, 0, 0)) (fun _ => 1) []).finbert_neutral ≠ 1/3 ∧
    (analyze_transcript true (fun _ => (1, 0, 0)) (fun _ => 1) []).finbert_positive ≠ 1/3 := by
  constructor <;> decide

/-- C7: the guidance detector always returns +1.0, -1.0 or 0.0; it returns
+1.0 exactly when the raise/beat pattern family has strictly more matches
against the lowercased text than the lower/miss family, -1.0 exactly when the
lower/miss family has strictly more, and 0.0 exactly on a tie; and the text
"raised guidance" (which matches no lowering pattern) yields +1.0. -/
theorem detect_guidance_correct :
    (∀ s : List Char,
      (detect_guidance s = 1 ∨ detect_guidance s = -1 ∨ detect_guidance s = 0) ∧
      (detect_guidance s = 1 ↔ guidance_neg_matches s < guidance_pos_matches s) ∧
      (detect_guidance s = -1 ↔ guidance_pos_matches s < guidance_neg_matches s) ∧
      (detect_guidance s = 0 ↔ guidance_pos_matches s = guidance_neg_matches s)) ∧
    detect_guidance ("raised guidance").data = 1 := by
  constructor
  · intro s
    unfold detect_guidance
    split_ifs with h1 h2
    · refine ⟨Or.inl rfl, ⟨fun _ => h1, fun _ => rfl⟩,
        ⟨fun hc => ?_, fun hc => ?_⟩, ⟨fun hc => ?_, fun hc => ?_⟩⟩
      · exfalso; norm_num at hc
      · exfalso; omega
      · exfalso; norm_num at hc
      · exfalso; omega
    · refine ⟨Or.inr (Or.inl rfl), ⟨fun hc => ?_, fun hc => ?_⟩,
        ⟨fun _ => h2, fun _ => rfl⟩, ⟨fun hc => ?_, fun hc => ?_⟩⟩
      · exfalso; norm_num at hc
      · exfalso; omega
      · exfalso; norm_num at hc
      · exfalso; omega
    · refine ⟨Or.inr (Or.inr rfl), ⟨fun hc => ?_, fun hc => ?_⟩,
        ⟨fun hc => ?_, fun hc => ?_⟩, ⟨fun _ => by omega, fun _ => rfl⟩⟩
      · exfalso; norm_num at hc
      · exfalso; omega
      · exfalso; norm_num at hc
      · exfalso; omega
  · decide

/-! ## Facts about the chunker -/

/-- Tokens produced by `splitWords`: nonempty and whitespace-free. -/
def goodWords (words : List (List Char)) : Prop :=
  ∀ w ∈ words, w ≠ [] ∧ ∀ c ∈ w, c.isWhitespace = false

theorem splitWordsAux_good :
    ∀ (s cur : List Char), (∀ c ∈ cur, c.isWhitespace = false) →
      goodWords (splitWordsAux cur s) := by
  intro s
  induction s with
  | nil =>
    intro cur hcur
    unfold splitWordsAux
    split_ifs with h
    · intro w hw
      exact absurd hw (List.not_mem_nil w)
    · intro w hw
      rw [List.mem_singleton] at hw
      subst hw
      refine ⟨by simpa using h, fun c hc => hcur c (List.mem_reverse.mp hc)⟩
  | cons c rest ih =>
    intro cur hcur
    unfold splitWordsAux
    by_cases hws : c.isWhitespace
    · rw [if_pos hws]
      by_cases hcur0 : cur = []
      · rw [if_pos hcur0]
        exact ih [] (by intro x hx; exact absurd hx (List.not_mem_nil x))
      · rw [if_neg hcur0]
        intro w hw
        rcases List.mem_cons.mp hw with rfl | hw2
        · refine ⟨by simpa using hcur0, fun a ha => hcur a (List.mem_reverse.mp ha)⟩
        · exact ih [] (by intro x hx; exact absurd hx (List.not_mem_nil x)) w hw2
    · rw [if_neg hws]
      refine ih (c :: cur) ?_
      intro x hx
      rcases List.mem_cons.mp hx with rfl | hx2
      · exact Bool.not_eq_true _ ▸ (by simpa using hws)
      · exact hcur x hx2

theorem splitWords_good (s : List Char) : goodWords (splitWords s) :=
  splitWordsAux_good s [] (by intro x hx; exact absurd hx (List.not_mem_nil x))

theorem mem_dropWhile_of_not {α} (p : α → Bool) :
    ∀ (l : List α) (a : α), a ∈ l → p a = false → a ∈ l.dropWhile p := by
  intro l
  induction l with
  | nil => intro a ha _; exact absurd ha (List.not_mem_nil a)
  | cons b t ih =>
    intro a ha hpa
    rw [List.dropWhile_cons]
    split_ifs with hb
    · rcases List.mem_cons.mp ha with rfl | h
      · rw [hpa] at hb; exact absurd hb (by simp)
      · exact ih a h hpa
    · exact ha

theorem trimChars_ne_nil {s : List Char} {c : Char} (hc : c ∈ s)
    (hw : c.isWhitespace = false) : trimChars s ≠ [] := by
  unfold trimChars
  intro h
  have h1 : (s.dropWhile Char.isWhitespace).reverse.dropWhile Char.isWhitespace = [] := by
    have := congrArg List.reverse h
    simpa using this
  have h2 : c ∈ s.dropWhile Char.isWhitespace := mem_dropWhile_of_not _ s c hc hw
  have h3 : c ∈ (s.dropWhile Char.isWhitespace).reverse := List.mem_reverse.mpr h2
  have h4 := mem_dropWhile_of_not Char.isWhitespace _ c h3 hw
  rw [h1] at h4
  exact absurd h4 (List.not_mem_nil c)

theorem mem_joinWords_head {c : Char} {w : List Char} (rest : List (List Char))
    (hc : c ∈ w) : c ∈ joinWords (w :: rest) := by
  cases rest with
  | nil => simpa [joinWords] using hc
  | cons r rs =>
    unfold joinWords
    exact List.mem_append_left _ hc

theorem take_drop_ne_nil {α} (l : List α) (s k : ℕ) (hs : s < l.length) (hk : 0 < k) :
    (l.drop s).take k ≠ [] := by
  intro h
  have h1 : ((l.drop s).take k).length = 0 := by rw [h]; rfl
  rw [List.length_take, List.length_drop] at h1
  omega

theorem chunk_trim_ne_nil {words : List (List Char)} (h : goodWords words)
    {s k : ℕ} (hne : (words.drop s).take k ≠ []) :
    trimChars (joinWords ((words.drop s).take k)) ≠ [] := by
  obtain ⟨w, rest, hw⟩ : ∃ w rest, (words.drop s).take k = w :: rest := by
    cases hcase : (words.drop s).take k with
    | nil => exact absurd hcase hne
    | cons a b => exact ⟨a, b, rfl⟩
  have hwmem : w ∈ words := by
    have hmem : w ∈ (words.drop s).take k := by rw [hw]; exact List.mem_cons_self w rest
    exact List.drop_subset s words (List.take_subset k (words.drop s) hmem)
  obtain ⟨hwne, hchars⟩ := h w hwmem
  obtain ⟨c, hc⟩ : ∃ c, c ∈ w := by
    cases w with
    | nil => exact absurd rfl hwne
    | cons a b => exact ⟨a, List.mem_cons_self a b⟩
  rw [hw]
  exact trimChars_ne_nil (mem_joinWords_head rest hc) (hchars c hc)

theorem chunkLoop_of_le (words : List (List Char)) (start : ℕ)
    (h : words.length ≤ start) : ∀ fuel, chunkLoop words start fuel = [] := by
  intro fuel
  cases fuel with
  | zero => rfl
  | succ n =>
    unfold chunkLoop
    rw [if_neg (by omega)]

theorem chunkLoop_last (words : List (List Char)) (h : goodWords words)
    (start fuel : ℕ) (h1 : start < words.length)
    (h2 : words.length ≤ start + words_per_chunk) :
    chunkLoop words start (fuel + 1) =
      [joinWords ((words.drop start).take (words.length - start))] := by
  unfold chunkLoop
  rw [if_pos h1]
  dsimp only
  rw [min_eq_right h2]
  rw [if_neg (lt_irrefl words.length)]
  rw [chunkLoop_of_le words words.length (le_refl _) fuel]
  rw [if_pos (chunk_trim_ne_nil h (take_drop_ne_nil words start _ h1 (by omega)))]

theorem chunkLoop_step (words : List (List Char)) (h : goodWords words)
    (start fuel : ℕ) (hlt : start + words_per_chunk < words.length) :
    chunkLoop words start (fuel + 1) =
      joinWords ((words.drop start).take words_per_chunk) ::
        chunkLoop words (start + 304) fuel := by
  conv_lhs => unfold chunkLoop
  rw [if_pos (by omega)]
  dsimp only
  rw [min_eq_left (le_of_lt hlt)]
  rw [if_pos hlt]
  have he : start + words_per_chunk - chunk_overlap = start + 304 := by
    rw [words_per_chunk_eq, chunk_overlap_eq]; omega
  have he2 : start + words_per_chunk - start = words_per_chunk := by omega
  rw [he, he2]
  rw [if_pos (chunk_trim_ne_nil h (take_drop_ne_nil words start _ (by omega)
    (by rw [words_per_chunk_eq]; omega)))]

theorem chunkText_length_three_windows (text : List Char)
    (h : (splitWords text).length = 3 * words_per_chunk) :
    (chunkText text).length = 4 := by
  have hg : goodWords (splitWords text) := splitWords_good text
  have hW : (splitWords text).length = 1011 := by
    rw [h, words_per_chunk_eq]
  have hlen4 : (chunkLoop (splitWords text) 0 ((splitWords text).length + 1)).length = 4 := by
    rw [hW]
    rw [chunkLoop_step _ hg 0 1011 (by rw [hW, words_per_chunk_eq]; omega)]
    rw [show (0:ℕ) + 304 = 304 from rfl]
    rw [show (1011:ℕ) = 1010 + 1 from rfl]
    rw [chunkLoop_step _ hg 304 1010 (by rw [hW, words_per_chunk_eq]; omega)]
    rw [show (304:ℕ) + 304 = 608 from rfl]
    rw [show (1010:ℕ) = 1009 + 1 from rfl]
    rw [chunkLoop_step _ hg 608 1009 (by rw [hW, words_per_chunk_eq]; omega)]
    rw [show (608:ℕ) + 304 = 912 from rfl]
    rw [show (1009:ℕ) = 1008 + 1 from rfl]
    rw [chunkLoop_last _ hg 912 1008 (by rw [hW]; omega)
      (by rw [hW, words_per_chunk_eq]; omega)]
    rfl
  unfold chunkText
  dsimp only
  rw [if_neg (by intro hcc; rw [hcc] at hlen4; exact absurd hlen4 (by simp))]
  exact hlen4

theorem chunkText_length_short (text : List Char)
    (h1 : 1 ≤ (splitWords text).length)
    (h2 : (splitWords text).length < words_per_chunk) :
    (chunkText text).length = 1 := by
  have hg : goodWords (splitWords text) := splitWords_good text
  have hlen1 : (chunkLoop (splitWords text) 0 ((splitWords text).length + 1)).length = 1 := by
    rw [chunkLoop_last _ hg 0 (splitWords text).length (by omega) (by omega)]
    rfl
  unfold chunkText
  dsimp only
  rw [if_neg (by intro hcc; rw [hcc] at hlen1; exact absurd hlen1 (by simp))]
  exact hlen1

/-- C5 (amended): with the configured window (337 words, 10 percent overlap,
so a stride of 304 words), a normalized text of exactly 3 x 337 = 1011 words
splits into exactly 4 overlapping chunks — not 3, because each window after
the first re-covers 33 words of its predecessor — while a non-degenerate text
shorter than one window yields exactly one chunk. -/
theorem chunk_window_counts (text : List Char) :
    ((splitWords text).length = 3 * words_per_chunk → (chunkText text).length = 4) ∧
    (1 ≤ (splitWords text).length → (splitWords text).length < words_per_chunk →
      (chunkText text).length = 1) :=
  ⟨chunkText_length_three_windows text, fun h1 h2 => chunkText_length_short text h1 h2⟩

/-- A concrete normalized text of exactly 3 x 337 = 1011 words. -/
def chunk_cex_text : List Char :=
  joinWords (List.replicate (3 * words_per_chunk) ("a").data)

set_option maxRecDepth 400000 in
/-- C5 witness: the window-count theorem applied to the concrete 1011-word
text and to the two-word text "hello world". -/
theorem chunk_window_counts_witness :
    (chunkText chunk_cex_text).length = 4 ∧
      (chunkText (("hello world").data)).length = 1 :=
  ⟨(chunk_window_counts chunk_cex_text).1 (by decide),
   (chunk_window_counts (("hello world").data)).2 (by decide) (by decide)⟩

set_option maxRecDepth 400000 in
/-- C5 counterexample: the concrete 1011-word text (exactly 3 windows' worth
of words) is split into 4 chunks, not the 3 the claim states. -/
theorem chunk_three_windows_counterexample :
    (splitWords chunk_cex_text).length = 3 * words_per_chunk ∧
      (chunkText chunk_cex_text).length ≠ 3 ∧
      (chunkText chunk_cex_text).length = 4 := by
  refine ⟨by decide, ?_, ?_⟩
  · have h4 := chunkText_length_three_windows chunk_cex_text (by decide)
    omega
  · exact chunkText_length_three_windows chunk_cex_text (by decide)

/-! ## Processing ledger (`StateTracker`)

The `processed` dictionary `{company: {quarter: entry}}` is modelled as an
association list with insert-or-replace update (Python dict semantics for the
keys used here).  The entry value is the stored metadata; the wall-clock
timestamp recorded next to it is not modelled.  `α` is the metadata type. -/

/-- Python `d.get(k)` on an association list. -/
def dictGet {α : Type} (k : String) : List (String × α) → Option α
  | [] => none
  | (k', v) :: rest => if k' = k then some v else dictGet k rest

/-- Python `d[k] = v` on an association list (insert or replace in place). -/
def dictInsert {α : Type} (k : String) (v : α) : List (String × α) → List (String × α)
  | [] => [(k, v)]
  | (k', v') :: rest => if k' = k then (k, v) :: rest else (k', v') :: dictInsert k v rest

/-- The persistent state of `StateTracker`: the `processed` map plus the
aggregate counters maintained by `_update_stats`. -/
structure TrackerState (α : Type) where
  processed : List (String × List (String × α))
  total_processed : ℕ
  total_companies : ℕ
deriving DecidableEq

/-- Source `StateTracker._update_stats` packaged with a new `processed` map. -/
def update_stats {α : Type} (p : List (String × List (String × α))) : TrackerState α :=
  ⟨p, (p.map (fun e => e.2.length)).sum, p.length⟩

/-- Source `StateTracker.is_processed`: look the company up uppercased, then test
quarter membership (case-sensitively). -/
def is_processed {α : Type} (st : TrackerState α) (company quarter : String) : Bool :=
  match dictGet (upperStr company) st.processed with
  | none => false
  | some qs => (dictGet quarter qs).isSome

/-- Source `StateTracker.mark_processed` (sans timestamp): store `meta` under the
uppercased company and the quarter as given, then recompute the stats. -/
def mark_processed {α : Type} (st : TrackerState α) (company quarter : String)
    (meta : α) : TrackerState α :=
  let cu := upperStr company
  let qs := (dictGet cu st.processed).getD []
  update_stats (dictInsert cu (dictInsert quarter meta qs) st.processed)

/-! ## Orchestrator (`AnalysisEngine.analyze_company` and the run loop) -/

/-- One entry of the list returned by `CloudTranscriptFetcher
.get_transcript_urls`. -/
structure TranscriptRef where
  url : String
  month : String
  year : String
  quarter : String
deriving DecidableEq

/-- One result dict built by `AnalysisEngine.analyze_company` (the
`Analyzed_At` wall-clock field is not modelled). -/
structure ResultRow where
  company : String
  sector : String
  year : String
  month : String
  overall_sentiment : ℚ
  polarity : ℚ
  keyword_sentiment : ℚ
  guidance : ℚ
  risk : ℚ
  finbert_positive : ℚ
  finbert_negative : ℚ
  finbert_neutral : ℚ
  file_count : ℕ
deriving DecidableEq

/-- The ledger as used by the engine: metadata is `{'sentiment': overall}`. -/
abbrev Ledger := TrackerState ℚ

/-- The result dict built for one transcript in `analyze_company`. -/
def rowOf (code sector : String) (t : TranscriptRef) (a : TranscriptAnalysis) : ResultRow :=
  ⟨code, sector, t.year, t.month, a.overall_sentiment, a.finbert_score,
   a.keyword_sentiment, a.guidance, a.risk, a.finbert_positive,
   a.finbert_negative, a.finbert_neutral, 1⟩

/-- The body of the `for transcript in transcripts` loop of
`analyze_company`: skip if already processed (unless forced), skip failed or
too-short extractions (`not text or len(text.split()) < 100`), otherwise
score, record the row and mark the ledger.  `extract` is the external
PDF-extraction oracle (`None` models a failed fetch). -/
def processOne (force : Bool) (code sector : String)
    (extract : String → Option (List Char)) (use_finbert : Bool)
    (model : List Char → ℚ × ℚ × ℚ) (tb : List Char → ℚ)
    (acc : Ledger × List ResultRow) (t : TranscriptRef) : Ledger × List ResultRow :=
  if ¬force ∧ is_processed acc.1 code t.quarter then acc
  else
    match extract t.url with
    | none => acc
    | some text =>
      if (splitWords text).length < 100 then acc
      else
        let a := analyze_transcript use_finbert model tb text
        (mark_processed acc.1 code t.quarter a.overall_sentiment,
         acc.2 ++ [rowOf code sector t a])

/-- One company's worth of work for the orchestrator: its NSE code, its
sector as resolved from the catalog, and the transcript references the
fetcher discovered for it. -/
structure CompanyJob where
  code : String
  sector : String
  transcripts : List TranscriptRef
deriving DecidableEq

/-- Source `AnalysisEngine.analyze_company`: iterate the company's transcripts,
returning the updated ledger and the produced result rows. -/
def analyze_company (force : Bool) (extract : String → Option (List Char))
    (use_finbert : Bool) (model : List Char → ℚ × ℚ × ℚ) (tb : List Char → ℚ)
    (job : CompanyJob) (st : Ledger) : Ledger × List ResultRow :=
  job.transcripts.foldl
    (processOne force job.code job.sector extract use_finbert model tb) (st, [])

/-- The per-company loop of `run_incremental`: run `analyze_company` for each
job in the batch, threading the ledger and accumulating all result rows. -/
def run_batch (force : Bool) (extract : String → Option (List Char))
    (use_finbert : Bool) (model : List Char → ℚ × ℚ × ℚ) (tb : List Char → ℚ)
    (batch : List CompanyJob) (st : Ledger) : Ledger × List ResultRow :=
  batch.foldl
    (fun acc job =>
      let r := analyze_company force extract use_finbert model tb job acc.1
      (r.1, acc.2 ++ r.2))
    (st, [])

/-! ## Merge-on-flush persistence (`AnalysisEngine.save_results`) -/

/-- The sentiment category thresholds used at both call sites
(`save_results` and `api_upload_pdfs`): Positive above 0.2, Negative below
-0.1, Neutral in between. -/
def sentiment_category (x : ℚ) : String :=
  if 1/5 < x then "Positive" else if x < -(1/10) then "Negative" else "Neutral"

/-- A persisted row: a result row plus its derived `Sentiment_Category`. -/
structure SavedRow extends ResultRow where
  sentiment_Category : String
deriving DecidableEq

/-- Attach the category column (`final_df['Sentiment_Category'] = ...`). -/
def withCategory (r : ResultRow) : SavedRow :=
  ⟨r, sentiment_category r.overall_sentiment⟩

/-- The merge key used by the dedup filter in `save_results`:
`(row['Company'], row['Year'], row['Month'])`. -/
def rowKey (r : ResultRow) : String × String × String := (r.company, r.year, r.month)

/-- The `month_map` of `save_results`; unmapped months (`NaN` in pandas,
sorted last under the descending sort) get 0, which also sorts last. -/
def month_num : String → ℕ
  | "Jan" => 1 | "Feb" => 2 | "Mar" => 3 | "Apr" => 4 | "May" => 5 | "Jun" => 6
  | "Jul" => 7 | "Aug" => 8 | "Sep" => 9 | "Oct" => 10 | "Nov" => 11 | "Dec" => 12
  | _ => 0

/-- The sort order of `save_results`: company ascending, then year
descending, then month number descending. -/
def rowLe (a b : SavedRow) : Bool :=
  if a.company ≠ b.company then decide (a.company < b.company)
  else if a.year ≠ b.year then decide (b.year < a.year)
  else decide (month_num b.month ≤ month_num a.month)

/-- Source `AnalysisEngine.save_results`: with no new rows the durable dataset is
left as it stands; otherwise in append mode drop the existing rows whose
(Company, Year, Month) key reappears in the batch, append the batch, attach
the category column and sort.  The function returns the dataset as written. -/
def save_results (new_results : List ResultRow) (existing : List ResultRow)
    (mode : String) : List SavedRow :=
  if new_results = [] then existing.map withCategory
  else
    let base :=
      if mode = "append" then
        existing.filter (fun r => decide (rowKey r ∉ new_results.map rowKey)) ++ new_results
      else new_results
    (base.map withCategory).mergeSort rowLe

/-! ## Document locator (`CloudTranscriptFetcher.get_transcript_urls`)

The DOM walking that collects candidate anchors (section search, stop
headings, the 300-link cap) is upstream of the modelled loop; a candidate
link arrives with its `href`, its visible text, and the result of
`_extract_date_from_context` (a DOM search, abstracted as data). -/

/-- A candidate anchor from the concalls section. -/
structure CandLink where
  href : String
  text : String
  ctx : Option (String × String)
deriving DecidableEq

/-- Source `self.base_url` of `CloudTranscriptFetcher`. -/
def screener_base : String := "https://www.screener.in"

/-- Python `needle in hay` on strings. -/
def substrOf (needle hay : String) : Bool := containsSub needle.data hay.data

/-- The month-name table used by `_extract_date_from_url`. -/
def month_names : List String :=
  ["Jan", "Feb", "Mar", "Apr", "May", "Jun",
   "Jul", "Aug", "Sep", "Oct", "Nov", "Dec"]

/-- A date separator accepted by the regex (slash or dash). -/
def isDateSep (c : Char) : Bool := c = '/' || c = '-'

/-- Try to match the date regex of `_extract_date_from_url` — four digits,
a slash-or-dash separator, two digits, a separator, two digits — at
position `i`, and build
the `{month, year}` dict `_extract_date_from_url` returns. -/
def dateAt (cs : List Char) (i : ℕ) : Option (String × String) :=
  match cs.drop i with
  | y1 :: y2 :: y3 :: y4 :: s1 :: m1 :: m2 :: s2 :: d1 :: d2 :: _ =>
    if y1.isDigit && y2.isDigit && y3.isDigit && y4.isDigit && isDateSep s1 &&
        m1.isDigit && m2.isDigit && isDateSep s2 && d1.isDigit && d2.isDigit then
      some
        (let mm := (m1.toNat - 48) * 10 + (m2.toNat - 48)
         if 1 ≤ mm ∧ mm ≤ 12 then (month_names.getD (mm - 1) "Unknown", ⟨[y1, y2, y3, y4]⟩)
         else ("Unknown", ⟨[y1, y2, y3, y4]⟩))
    else none
  | _ => none

/-- Source `CloudTranscriptFetcher._extract_date_from_url`: `re.search` finds the
leftmost match. -/
def extract_date_from_url (url : String) : Option (String × String) :=
  (List.range url.data.length).findSome? (fun i => dateAt url.data i)

/-- Python `int(s)` for the digit strings produced by the date extraction
(`None` models the `except` branch). -/
def strToNat? (s : String) : Option ℕ :=
  if s.data ≠ [] ∧ s.data.all Char.isDigit then
    some (s.data.foldl (fun n c => n * 10 + (c.toNat - 48)) 0)
  else none

/-- Source `urljoin(self.base_url, href)` for the fixed base (scheme and host, no
path): an absolute href wins, otherwise the href is attached to the base. -/
def urljoin (base href : String) : String :=
  if substrOf "://" href then href
  else if ("/").data.isPrefixOf href.data then base ++ href
  else base ++ "/" ++ href

/-- The per-link filtering of `get_transcript_urls` (the body of `for link
in all_links`): each `continue` of the source is a `none` here.  Skip
empty/anchor/javascript hrefs, keep only links whose visible text mentions
"transcript", resolve the period from the DOM context or the URL, filter by
year range, resolve the absolute URL against the base, and keep only URLs
containing "bseindia.com". -/
def link_candidate (start_year end_year : ℕ) (l : CandLink) : Option TranscriptRef :=
  if l.href = "" || ("#").data.isPrefixOf l.href.data || substrOf "javascript:" l.href then
    none
  else if ¬ containsSub ("transcript").data (toLowerChars l.text.data) then none
  else
    match l.ctx.orElse (fun _ => extract_date_from_url l.href) with
    | none => none
    | some (month, year) =>
      match strToNat? year with
      | none => none
      | some y =>
        if ¬(start_year ≤ y ∧ y ≤ end_year) then none
        else
          let full := urljoin screener_base l.href
          if ¬ substrOf "bseindia.com" full then none
          else some ⟨full, month, year, month ++ "_" ++ year⟩

/-- The loop over the candidate links with the `seen_urls` de-duplication:
a surviving candidate is emitted only if its resolved URL is new, and the
URL is then added to `seen`. -/
def transcriptLoop (start_year end_year : ℕ) :
    List CandLink → List String → List TranscriptRef
  | [], _ => []
  | l :: rest, seen =>
    match link_candidate start_year end_year l with
    | none => transcriptLoop start_year end_year rest seen
    | some ref =>
      if ref.url ∈ seen then transcriptLoop start_year end_year rest seen
      else ref :: transcriptLoop start_year end_year rest (ref.url :: seen)

/-- Source `CloudTranscriptFetcher.get_transcript_urls` with the default year range,
over the abstracted candidate links. -/
def get_transcript_urls (links : List CandLink) (start_year end_year : ℕ) :
    List TranscriptRef :=
  transcriptLoop start_year end_year links []

/-- The host of a URL: what stands between `://` and the next slash. -/
def urlHost (u : String) : String :=
  match (List.range u.data.length).find?
      (fun i => ("://").data.isPrefixOf (u.data.drop i)) with
  | none => ""
  | some i => ⟨(u.data.drop (i + 3)).takeWhile (fun c => c ≠ '/')⟩

/-- Being hosted on bseindia.com: the host is `bseindia.com` itself or one of
its subdomains. -/
def hostedOnBse (u : String) : Bool :=
  urlHost u = "bseindia.com" || ("." ++ "bseindia.com").data.isSuffixOf (urlHost u).data

/-! ## Facts about the ledger -/

theorem dictGet_dictInsert {α : Type} (k q : String) (v : α) (l : List (String × α)) :
    dictGet q (dictInsert k v l) = if q = k then some v else dictGet q l := by
  induction l with
  | nil =>
    simp only [dictInsert, dictGet]
    split_ifs <;> simp_all
  | cons pair rest ih =>
    obtain ⟨k', v'⟩ := pair
    simp only [dictInsert, dictGet]
    split_ifs <;> simp_all [dictGet]

theorem is_processed_mark_iff {α : Type} (st : TrackerState α) (c q : String) (m : α)
    (c' q' : String) :
    is_processed (mark_processed st c q m) c' q' = true ↔
      (upperStr c' = upperStr c ∧ q' = q) ∨ is_processed st c' q' = true := by
  unfold mark_processed update_stats is_processed
  dsimp only
  rw [dictGet_dictInsert]
  by_cases hc : upperStr c' = upperStr c
  · rw [if_pos hc, hc]
    cases hget : dictGet (upperStr c) st.processed with
    | none =>
      simp only [Option.getD_none, dictGet_dictInsert]
      by_cases hq : q' = q
      · simp [hq, hc]
      · simp [hq, hc, dictGet]
    | some qs0 =>
      simp only [Option.getD_some, dictGet_dictInsert]
      by_cases hq : q' = q
      · simp [hq, hc]
      · simp [hq, hc]
  · rw [if_neg hc]
    cases hget : dictGet (upperStr c') st.processed with
    | none => simp [hc]
    | some qs0 => simp [hc]

theorem is_processed_mark_self {α : Type} (st : TrackerState α) (c q : String) (m : α) :
    is_processed (mark_processed st c q m) c q = true :=
  (is_processed_mark_iff st c q m c q).mpr (Or.inl ⟨rfl, rfl⟩)

theorem is_processed_mark_mono {α : Type} (st : TrackerState α) (c q : String) (m : α)
    (c' q' : String) (h : is_processed st c' q' = true) :
    is_processed (mark_processed st c q m) c' q' = true :=
  (is_processed_mark_iff st c q m c' q').mpr (Or.inr h)

/-- C9: the ledger round-trips case-insensitively in the company and
case-sensitively in the quarter: after `mark_processed c q m`,
`is_processed c' q` holds for every company spelled like `c` up to letter
case; a quarter spelled differently (here: differing only in case, not
previously present) is still reported unprocessed; and every other
(company, quarter) key reads exactly as before the mark. -/
theorem ledger_mark_roundtrip {α : Type} (st : TrackerState α) (c c' q q' : String)
    (m : α) (hc : upperStr c' = upperStr c) (hq : q' ≠ q)
    (hnot : is_processed st c q' = false) :
    is_processed (mark_processed st c q m) c' q = true ∧
    is_processed (mark_processed st c q m) c q' = false ∧
    (∀ d r : String, ¬(upperStr d = upperStr c ∧ r = q) →
      is_processed (mark_processed st c q m) d r = is_processed st d r) := by
  refine ⟨(is_processed_mark_iff st c q m c' q).mpr (Or.inl ⟨hc, rfl⟩), ?_, ?_⟩
  · cases hcase : is_processed (mark_processed st c q m) c q' with
    | false => rfl
    | true =>
      rcases (is_processed_mark_iff st c q m c q').mp hcase with ⟨_, hq2⟩ | hold
      · exact absurd hq2 hq
      · rw [hold] at hnot
        exact absurd hnot (by simp)
  · intro d r hdr
    have hiff := is_processed_mark_iff st c q m d r
    cases hnew : is_processed (mark_processed st c q m) d r with
    | false =>
      cases hold : is_processed st d r with
      | false => rfl
      | true =>
        rw [hnew, hold] at hiff
        simp at hiff
    | true =>
      cases hold : is_processed st d r with
      | false =>
        rw [hnew, hold] at hiff
        rcases hiff.mp rfl with hcond | hfalse
        · exact absurd hcond hdr
        · exact absurd hfalse (by simp)
      | true => rfl

/-- C9 witness: the round-trip theorem applied to the empty ledger with
company "tcs" (checked as "TCS") and quarters "Jan_2024" vs "JAN_2024". -/
theorem ledger_mark_roundtrip_witness :
    is_processed (mark_processed (⟨[], 0, 0⟩ : TrackerState ℚ) "tcs" "Jan_2024" 1)
        "TCS" "Jan_2024" = true ∧
    is_processed (mark_processed (⟨[], 0, 0⟩ : TrackerState ℚ) "tcs" "Jan_2024" 1)
        "tcs" "JAN_2024" = false := by
  have h := ledger_mark_roundtrip (⟨[], 0, 0⟩ : TrackerState ℚ) "tcs" "TCS"
    "Jan_2024" "JAN_2024" 1 (by decide) (by decide) (by decide)
  exact ⟨h.1, h.2.1⟩

/-! ## Facts about the orchestrator (idempotence) -/

/-- A transcript whose extraction succeeds with enough text to be scored. -/
def extractOk (extract : String → Option (List Char)) (t : TranscriptRef) : Prop :=
  ∃ text, extract t.url = some text ∧ ¬(splitWords text).length < 100

theorem processOne_mono (force : Bool) (code sector : String)
    (extract : String → Option (List Char)) (uf : Bool)
    (model : List Char → ℚ × ℚ × ℚ) (tb : List Char → ℚ)
    (acc : Ledger × List ResultRow) (t : TranscriptRef) (c q : String)
    (h : is_processed acc.1 c q = true) :
    is_processed (processOne force code sector extract uf model tb acc t).1 c q = true := by
  unfold processOne
  split_ifs with h1
  · exact h
  · cases hx : extract t.url with
    | none => exact h
    | some text =>
      dsimp only
      split_ifs with h2
      · exact h
      · exact is_processed_mark_mono acc.1 code t.quarter _ c q h

theorem foldl_processOne_mono (force : Bool) (code sector : String)
    (extract : String → Option (List Char)) (uf : Bool)
    (model : List Char → ℚ × ℚ × ℚ) (tb : List Char → ℚ) :
    ∀ (ts : List TranscriptRef) (acc : Ledger × List ResultRow) (c q : String),
      is_processed acc.1 c q = true →
      is_processed ((ts.foldl (processOne force code sector extract uf model tb) acc)).1
        c q = true := by
  intro ts
  induction ts with
  | nil => intro acc c q h; exact h
  | cons t rest ih =>
    intro acc c q h
    rw [List.foldl_cons]
    exact ih _ c q (processOne_mono force code sector extract uf model tb acc t c q h)

theorem foldl_processOne_settles (code sector : String)
    (extract : String → Option (List Char)) (uf : Bool)
    (model : List Char → ℚ × ℚ × ℚ) (tb : List Char → ℚ) :
    ∀ (ts : List TranscriptRef) (acc : Ledger × List ResultRow) (t : TranscriptRef),
      t ∈ ts →
      is_processed ((ts.foldl (processOne false code sector extract uf model tb) acc)).1
          code t.quarter = true
        ∨ ¬ extractOk extract t := by
  intro ts
  induction ts with
  | nil => intro acc t ht; exact absurd ht (List.not_mem_nil t)
  | cons t0 rest ih =>
    intro acc t ht
    rcases List.mem_cons.mp ht with rfl | hmem
    · by_cases hok : extractOk extract t
      · left
        rw [List.foldl_cons]
        apply foldl_processOne_mono false code sector extract uf model tb rest _
          code t.quarter
        unfold processOne
        by_cases hp : ¬(false = true) ∧ is_processed acc.1 code t.quarter = true
        · rw [if_pos hp]
          exact hp.2
        · rw [if_neg hp]
          obtain ⟨text, hx, hlen⟩ := hok
          rw [hx]
          dsimp only
          rw [if_neg hlen]
          exact is_processed_mark_self acc.1 code t.quarter _
      · exact Or.inr hok
    · rw [List.foldl_cons]
      exact ih _ t hmem

theorem foldl_processOne_noop (code sector : String)
    (extract : String → Option (List Char)) (uf : Bool)
    (model : List Char → ℚ × ℚ × ℚ) (tb : List Char → ℚ) :
    ∀ (ts : List TranscriptRef) (st : Ledger) (rows : List ResultRow),
      (∀ t ∈ ts, is_processed st code t.quarter = true ∨ ¬ extractOk extract t) →
      ts.foldl (processOne false code sector extract uf model tb) (st, rows) = (st, rows) := by
  intro ts
  induction ts with
  | nil => intro st rows _; rfl
  | cons t0 rest ih =>
    intro st rows h
    rw [List.foldl_cons]
    have hstep : processOne false code sector extract uf model tb (st, rows) t0 = (st, rows) := by
      rcases h t0 (List.mem_cons_self t0 rest) with hp | hnok
      · unfold processOne
        rw [if_pos ⟨by simp, hp⟩]
      · unfold processOne
        split_ifs <;> try rfl
        all_goals
          cases hx : extract t0.url with
          | none => rfl
          | some text =>
            dsimp only
            have hlen : (splitWords text).length < 100 := by
              by_contra hcon
              exact hnok ⟨text, hx, hcon⟩
            rw [if_pos hlen]
    rw [hstep]
    exact ih st rows (fun t ht => h t (List.mem_cons_of_mem t0 ht))

/-- All of a job's transcripts are either recorded in the ledger or fail
extraction: the state after a successful first run. -/
def settledJob (extract : String → Option (List Char)) (st : Ledger)
    (job : CompanyJob) : Prop :=
  ∀ t ∈ job.transcripts, is_processed st job.code t.quarter = true ∨ ¬ extractOk extract t

theorem settledJob_mono (extract : String → Option (List Char)) {st st' : Ledger}
    (job : CompanyJob)
    (hmono : ∀ c q, is_processed st c q = true → is_processed st' c q = true)
    (h : settledJob extract st job) : settledJob extract st' job :=
  fun t ht => (h t ht).imp (hmono job.code t.quarter) id

theorem foldl_batch_mono (extract : String → Option (List Char)) (uf : Bool)
    (model : List Char → ℚ × ℚ × ℚ) (tb : List Char → ℚ) :
    ∀ (batch : List CompanyJob) (acc : Ledger × List ResultRow) (c q : String),
      is_processed acc.1 c q = true →
      is_processed ((batch.foldl
        (fun acc job =>
          let r := analyze_company false extract uf model tb job acc.1
          (r.1, acc.2 ++ r.2)) acc)).1 c q = true := by
  intro batch
  induction batch with
  | nil => intro acc c q h; exact h
  | cons job rest ih =>
    intro acc c q h
    rw [List.foldl_cons]
    exact ih _ c q (foldl_processOne_mono false job.code job.sector extract uf model tb
      job.transcripts (acc.1, []) c q h)

theorem foldl_batch_settles (extract : String → Option (List Char)) (uf : Bool)
    (model : List Char → ℚ × ℚ × ℚ) (tb : List Char → ℚ) :
    ∀ (batch : List CompanyJob) (acc : Ledger × List ResultRow) (job : CompanyJob),
      job ∈ batch →
      settledJob extract ((batch.foldl
        (fun acc job =>
          let r := analyze_company false extract uf model tb job acc.1
          (r.1, acc.2 ++ r.2)) acc)).1 job := by
  intro batch
  induction batch with
  | nil => intro acc job hjob; exact absurd hjob (List.not_mem_nil job)
  | cons job0 rest ih =>
    intro acc job hjob
    rcases List.mem_cons.mp hjob with rfl | hmem
    · rw [List.foldl_cons]
      apply settledJob_mono extract job
        (fun c q h => foldl_batch_mono extract uf model tb rest _ c q h)
      intro t ht
      exact foldl_processOne_settles job.code job.sector extract uf model tb
        job.transcripts (acc.1, []) t ht
    · rw [List.foldl_cons]
      exact ih _ job hmem

theorem foldl_batch_noop (extract : String → Option (List Char)) (uf : Bool)
    (model : List Char → ℚ × ℚ × ℚ) (tb : List Char → ℚ) :
    ∀ (batch : List CompanyJob) (st : Ledger) (rows : List ResultRow),
      (∀ job ∈ batch, settledJob extract st job) →
      batch.foldl
        (fun acc job =>
          let r := analyze_company false extract uf model tb job acc.1
          (r.1, acc.2 ++ r.2)) (st, rows) = (st, rows) := by
  intro batch
  induction batch with
  | nil => intro st rows _; rfl
  | cons job0 rest ih =>
    intro st rows h
    rw [List.foldl_cons]
    have hnoop : analyze_company false extract uf model tb job0 st = (st, []) :=
      foldl_processOne_noop job0.code job0.sector extract uf model tb
        job0.transcripts st [] (h job0 (List.mem_cons_self job0 rest))
    dsimp only
    rw [hnoop]
    rw [List.append_nil]
    exact ih st rows (fun job hjob => h job (List.mem_cons_of_mem job0 hjob))

/-- C3: running the orchestrator twice over the same batch with the force
flag unset is idempotent — the second invocation marks nothing new in the
ledger (the ledger is unchanged) and produces no result rows, because every
(entity, period) the first run marked is caught by the `is_processed` check
before any extraction or scoring, and everything else deterministically
fails extraction again. -/
theorem run_batch_idempotent (extract : String → Option (List Char)) (uf : Bool)
    (model : List Char → ℚ × ℚ × ℚ) (tb : List Char → ℚ)
    (batch : List CompanyJob) (st : Ledger) :
    run_batch false extract uf model tb batch
        ((run_batch false extract uf model tb batch st).1)
      = ((run_batch false extract uf model tb batch st).1, []) := by
  unfold run_batch
  apply foldl_batch_noop
  intro job hjob
  exact foldl_batch_settles extract uf model tb batch (st, []) job hjob

/-! ## Facts about merge-on-flush persistence -/

theorem map_withCategory_filter (l : List ResultRow) (p : SavedRow → Bool) :
    (l.map withCategory).filter p
      = (l.filter (fun r => p (withCategory r))).map withCategory := by
  induction l with
  | nil => rfl
  | cons a t ih =>
    rw [List.map_cons, List.filter_cons, List.filter_cons]
    by_cases hp : p (withCategory a)
    · simp [hp, ih]
    · simp [hp, ih]

theorem countP_key_eq_one :
    ∀ (l : List ResultRow), (l.map rowKey).Nodup →
      ∀ r ∈ l, l.countP (fun x => decide (rowKey x = rowKey r)) = 1 := by
  intro l
  induction l with
  | nil => intro _ r hr; exact absurd hr (List.not_mem_nil r)
  | cons a t ih =>
    intro hnd r hr
    rw [List.map_cons, List.nodup_cons] at hnd
    obtain ⟨hna, hnt⟩ := hnd
    rcases List.mem_cons.mp hr with rfl | hrt
    · rw [List.countP_cons]
      have hz : t.countP (fun x => decide (rowKey x = rowKey r)) = 0 := by
        rw [List.countP_eq_zero]
        intro x hx hpx
        rw [decide_eq_true_eq] at hpx
        exact hna (hpx ▸ List.mem_map_of_mem rowKey hx)
      simp [hz]
    · rw [List.countP_cons]
      rw [ih hnt r hrt]
      have hne : ¬(rowKey a = rowKey r) := by
        intro hc
        exact hna (hc ▸ List.mem_map_of_mem rowKey hrt)
      simp [hne]

/-- C4 (merge-on-flush): flushing a nonempty batch whose keys are pairwise
distinct (as batches built by the orchestrator are) leaves, for every key in
the batch, exactly one row in the merged dataset — the incoming one — while
rows for keys outside the batch survive as they were (up to reordering by the
final sort, and with the category column recomputed from the same score). -/
theorem save_results_merge (new existing : List ResultRow)
    (hnd : (new.map rowKey).Nodup) :
    (∀ r ∈ new,
      (save_results new existing "append").countP
          (fun s => decide (rowKey s.toResultRow = rowKey r)) = 1 ∧
      ∀ s ∈ save_results new existing "append",
        rowKey s.toResultRow = rowKey r → s = withCategory r) ∧
    (∀ k, k ∉ new.map rowKey →
      List.Perm
        ((save_results new existing "append").filter
          (fun s => decide (rowKey s.toResultRow = k)))
        ((existing.filter (fun r => decide (rowKey r = k))).map withCategory)) := by
  by_cases hn : new = []
  · subst hn
    constructor
    · intro r hr
      exact absurd hr (List.not_mem_nil r)
    · intro k _
      unfold save_results
      rw [if_pos rfl]
      rw [map_withCategory_filter]
      exact List.Perm.refl _
  · have hsave : save_results new existing "append"
        = ((existing.filter (fun r => decide (rowKey r ∉ new.map rowKey)) ++ new).map
            withCategory).mergeSort rowLe := by
      unfold save_results
      rw [if_neg hn, if_pos rfl]
    have hperm := List.mergeSort_perm
      ((existing.filter (fun r => decide (rowKey r ∉ new.map rowKey)) ++ new).map
        withCategory) rowLe
    constructor
    · intro r hr
      constructor
      · rw [hsave, hperm.countP_eq, List.map_append, List.countP_append,
          List.countP_map, List.countP_map]
        have hkept : List.countP
            ((fun s => decide (rowKey s.toResultRow = rowKey r)) ∘ withCategory)
            (existing.filter (fun x => decide (rowKey x ∉ new.map rowKey))) = 0 := by
          rw [List.countP_eq_zero]
          intro x hx hpx
          have hpx2 : rowKey x = rowKey r := by simpa using hpx
          have hx2 := List.of_mem_filter hx
          rw [decide_eq_true_eq] at hx2
          exact hx2 (hpx2 ▸ List.mem_map_of_mem rowKey hr)
        rw [hkept]
        have hnew1 : List.countP
            ((fun s => decide (rowKey s.toResultRow = rowKey r)) ∘ withCategory) new
            = List.countP (fun x => decide (rowKey x = rowKey r)) new := rfl
        rw [hnew1, countP_key_eq_one new hnd r hr]
      · intro s hs hkey
        rw [hsave] at hs
        have hs2 := hperm.mem_iff.mp hs
        obtain ⟨x, hx, rfl⟩ := List.mem_map.mp hs2
        rcases List.mem_append.mp hx with hxk | hxn
        · exfalso
          have hx2 := List.of_mem_filter hxk
          rw [decide_eq_true_eq] at hx2
          exact hx2 (hkey ▸ List.mem_map_of_mem rowKey hr)
        · have hxr : x = r :=
            List.inj_on_of_nodup_map hnd hxn hr hkey
          rw [hxr]
    · intro k hk
      rw [hsave]
      refine (List.Perm.filter _ hperm).trans ?_
      rw [List.map_append, List.filter_append]
      have hnew : ((new.map withCategory).filter
          (fun s => decide (rowKey s.toResultRow = k))) = [] := by
        rw [List.filter_eq_nil_iff]
        intro s hs
        obtain ⟨x, hxn, rfl⟩ := List.mem_map.mp hs
        rw [decide_eq_true_eq]
        intro hc
        exact hk (hc ▸ List.mem_map_of_mem rowKey hxn)
      rw [hnew, List.append_nil]
      rw [map_withCategory_filter]
      have hfil : (existing.filter (fun r => decide (rowKey r ∉ new.map rowKey))).filter
            (fun r => decide (rowKey (withCategory r).toResultRow = k))
          = existing.filter (fun r => decide (rowKey r = k)) := by
        rw [List.filter_filter]
        apply List.filter_congr
        intro a _
        show (decide (rowKey a = k) && decide (rowKey a ∉ new.map rowKey))
          = decide (rowKey a = k)
        by_cases hak : rowKey a = k
        · have hnotin : rowKey a ∉ new.map rowKey := by rw [hak]; exact hk
          have hall : ∀ x ∈ new, ¬rowKey x = k := by
            intro x hx hcx
            apply hnotin
            rw [hak, ← hcx]
            exact List.mem_map_of_mem rowKey hx
          simp [hak, hnotin]
          exact hall
        · simp [hak]
      rw [hfil]

/-- Concrete rows for the persistence witnesses: `a_row0` and `a_row1` share
the key ("A", "2020", "Jan"); `b_row` has another key. -/
def a_row0 : ResultRow := ⟨"A", "Tech", "2020", "Jan", 1/10, 1/10, 0, 0, 0, 1/2, 1/4, 1/4, 1⟩

def a_row1 : ResultRow := ⟨"A", "Tech", "2020", "Jan", 7/10, 7/10, 0, 1, 0, 3/4, 1/8, 1/8, 1⟩

def b_row : ResultRow := ⟨"B", "Auto", "2021", "Feb", 0, 0, 0, 0, 0, 1/3, 1/3, 1/3, 1⟩

/-- C4 witness: the merge theorem applied to a concrete flush replacing the
("A", "2020", "Jan") row. -/
theorem save_results_merge_witness :
    (save_results [a_row1] [a_row0, b_row] "append").countP
        (fun s => decide (rowKey s.toResultRow = rowKey a_row1)) = 1 :=
  ((save_results_merge [a_row1] [a_row0, b_row] (by simp)).1 a_row1 (by simp)).1

/-- C8: the persisted category label is derived from the composite score by
the asymmetric fixed thresholds: "Positive" exactly above 0.2, "Negative"
exactly below -0.1, "Neutral" on the whole band [-0.1, 0.2]; and every row
written by `save_results` carries exactly this label for its own composite
score. -/
theorem sentiment_category_thresholds :
    (∀ x : ℚ,
      (sentiment_category x = "Positive" ↔ 1/5 < x) ∧
      (sentiment_category x = "Negative" ↔ x < -(1/10)) ∧
      (sentiment_category x = "Neutral" ↔ -(1/10) ≤ x ∧ x ≤ 1/5)) ∧
    (∀ (new existing : List ResultRow) (mode : String),
      ∀ s ∈ save_results new existing mode,
        s.sentiment_Category = sentiment_category s.overall_sentiment) := by
  constructor
  · intro x
    unfold sentiment_category
    split_ifs with h1 h2
    · refine ⟨⟨fun _ => h1, fun _ => rfl⟩, ⟨fun hc => ?_, fun hc => ?_⟩,
        ⟨fun hc => ?_, fun hc => ?_⟩⟩
      · exact absurd hc (by decide)
      · exfalso; linarith
      · exact absurd hc (by decide)
      · exfalso; linarith [hc.2]
    · refine ⟨⟨fun hc => ?_, fun hc => ?_⟩, ⟨fun _ => h2, fun _ => rfl⟩,
        ⟨fun hc => ?_, fun hc => ?_⟩⟩
      · exact absurd hc (by decide)
      · exfalso; exact h1 hc
      · exact absurd hc (by decide)
      · exfalso; linarith [hc.1]
    · refine ⟨⟨fun hc => ?_, fun hc => ?_⟩, ⟨fun hc => ?_, fun hc => ?_⟩,
        ⟨fun _ => ⟨by linarith, by linarith⟩, fun _ => rfl⟩⟩
      · exact absurd hc (by decide)
      · exfalso; exact h1 hc
      · exact absurd hc (by decide)
      · exfalso; exact h2 hc
  · intro new existing mode s hs
    have hmem : ∃ x, s = withCategory x := by
      by_cases hn : new = []
      · unfold save_results at hs
        rw [if_pos hn] at hs
        obtain ⟨x, _, rfl⟩ := List.mem_map.mp hs
        exact ⟨x, rfl⟩
      · unfold save_results at hs
        rw [if_neg hn] at hs
        have hperm := List.mergeSort_perm
          ((if mode = "append" then
              existing.filter (fun r => decide (rowKey r ∉ new.map rowKey)) ++ new
            else new).map withCategory) rowLe
        have hs2 := hperm.mem_iff.mp hs
        obtain ⟨x, _, rfl⟩ := List.mem_map.mp hs2
        exact ⟨x, rfl⟩
    obtain ⟨x, rfl⟩ := hmem
    rfl

/-- C8 witness: the threshold theorem applied to a dataset holding one
concrete row with composite score 0.3 (category "Positive"). -/
theorem sentiment_category_thresholds_witness :
    (withCategory a_row0).sentiment_Category
      = sentiment_category (withCategory a_row0).overall_sentiment :=
  sentiment_category_thresholds.2 [] [a_row0] "append" (withCategory a_row0)
    (by simp [save_results])

/-! ## Facts about the document locator -/

theorem link_candidate_bse (sy ey : ℕ) (l : CandLink) (ref : TranscriptRef)
    (h : link_candidate sy ey l = some ref) :
    substrOf "bseindia.com" ref.url = true := by
  unfold link_candidate at h
  split at h
  · exact Option.noConfusion h
  split at h
  · exact Option.noConfusion h
  split at h
  · exact Option.noConfusion h
  split at h
  · exact Option.noConfusion h
  split at h
  · exact Option.noConfusion h
  dsimp only at h
  split at h
  · exact Option.noConfusion h
  next hbse =>
    cases h
    simpa using hbse

theorem transcriptLoop_mem (sy ey : ℕ) :
    ∀ (links : List CandLink) (seen : List String) (r : TranscriptRef),
      r ∈ transcriptLoop sy ey links seen →
      substrOf "bseindia.com" r.url = true ∧ r.url ∉ seen := by
  intro links
  induction links with
  | nil =>
    intro seen r hr
    exact absurd hr (List.not_mem_nil r)
  | cons l rest ih =>
    intro seen r hr
    unfold transcriptLoop at hr
    cases hc : link_candidate sy ey l with
    | none =>
      rw [hc] at hr
      exact ih seen r hr
    | some ref =>
      rw [hc] at hr
      dsimp only at hr
      by_cases hseen : ref.url ∈ seen
      · rw [if_pos hseen] at hr
        exact ih seen r hr
      · rw [if_neg hseen] at hr
        rcases List.mem_cons.mp hr with rfl | hr2
        · exact ⟨link_candidate_bse sy ey l r hc, hseen⟩
        · have h2 := ih (ref.url :: seen) r hr2
          exact ⟨h2.1, fun hmem => h2.2 (List.mem_cons_of_mem _ hmem)⟩

theorem transcriptLoop_nodup (sy ey : ℕ) :
    ∀ (links : List CandLink) (seen : List String),
      ((transcriptLoop sy ey links seen).map (fun r => r.url)).Nodup := by
  intro links
  induction links with
  | nil =>
    intro seen
    simp [transcriptLoop]
  | cons l rest ih =>
    intro seen
    unfold transcriptLoop
    cases hc : link_candidate sy ey l with
    | none => exact ih seen
    | some ref =>
      dsimp only
      by_cases hseen : ref.url ∈ seen
      · rw [if_pos hseen]
        exact ih seen
      · rw [if_neg hseen]
        rw [List.map_cons, List.nodup_cons]
        refine ⟨?_, ih _⟩
        intro hmem
        obtain ⟨r2, hr2, hurl⟩ := List.mem_map.mp hmem
        have h2 := transcriptLoop_mem sy ey rest (ref.url :: seen) r2 hr2
        exact h2.2 (hurl ▸ List.mem_cons_self _ _)

/-- C10 (amended): every reference the locator returns has a resolved URL
that contains the substring "bseindia.com" — the filter is a substring test
on the whole URL, not a host check, so a URL on another host whose path
contains that string is not dropped — and no two returned references share
the same resolved absolute URL. -/
theorem transcript_urls_filter (links : List CandLink) (sy ey : ℕ) :
    (∀ r ∈ get_transcript_urls links sy ey, substrOf "bseindia.com" r.url = true) ∧
    ((get_transcript_urls links sy ey).map (fun r => r.url)).Nodup :=
  ⟨fun r hr => (transcriptLoop_mem sy ey links [] r hr).1,
   transcriptLoop_nodup sy ey links []⟩

/-- A well-behaved candidate link actually hosted on bseindia.com. -/
def good_link : CandLink :=
  ⟨"https://www.bseindia.com/xmldata/doc.pdf", "Transcript", some ("Jan", "2024")⟩

/-- A candidate link on another host whose path contains "bseindia.com". -/
def evil_link : CandLink :=
  ⟨"https://evil.example/bseindia.com/doc.pdf", "Transcript", some ("Jan", "2024")⟩

/-- C10 witness: the filter theorem applied to a concrete link list. -/
theorem transcript_urls_filter_witness :
    substrOf "bseindia.com" "https://www.bseindia.com/xmldata/doc.pdf" = true :=
  (transcript_urls_filter [good_link] 2015 2026).1
    ⟨"https://www.bseindia.com/xmldata/doc.pdf", "Jan", "2024", "Jan_2024"⟩ (by decide)

/-- C10 counterexample: a crafted link on host evil.example whose path
contains "bseindia.com" passes the filter and is returned, so the returned
references are not all hosted on bseindia.com. -/
theorem transcript_urls_host_counterexample :
    get_transcript_urls [evil_link] 2015 2026 =
      [⟨"https://evil.example/bseindia.com/doc.pdf", "Jan", "2024", "Jan_2024"⟩] ∧
    urlHost "https://evil.example/bseindia.com/doc.pdf" = "evil.example" ∧
    hostedOnBse "https://evil.example/bseindia.com/doc.pdf" = false := by
  refine ⟨by decide, by decide, by decide⟩

end Sentiment
